import Mathlib

/-!
Verification of the HBA-discovery / config-drive utilities of
`novadocker/virt/docker/utils.py`.

The Python source is shallowly embedded below:

* `stripc`, `splitAtChar`, `rmChar`, `rm0x` embed the `str.strip`,
  `str.split(sep)` and `str.replace(pat, "")` operations used by the code
  (Python `replace` removes every non-overlapping occurrence, left to right).
* `parseLoop` / `parseFcHbaText` embed the line-scanning loop of
  `get_fc_hbas` (drop the first two lines, close a record on two
  consecutive blank lines, store `key = value` lines).
* `get_fc_hbas` embeds the command-invocation wrapper, with the outcome of
  the external `systool` call made explicit as an `ExecOutcome` value; the
  warning messages the code logs are returned alongside the result.
* `wwpnsFromRecs` / `wwnnsFromRecs` embed the extraction loops of
  `get_fc_wwpns` / `get_fc_wwnns`; a Python `KeyError` is an explicit
  `FcErr.keyError`.
* `ConfigDriveBuilder.cleanup` / `ConfigDriveBuilder.exitScope` embed the
  config-drive builder's cleanup and context-manager exit, with the
  filesystem modelled as the list of existing paths and
  `fileutils.delete_if_exists` as removal of a path (absent path tolerated).
-/

/-- The characters stripped by Python `str.strip()` (ASCII whitespace). -/
def pyIsSpace (c : Char) : Bool :=
  c = ' ' || c = '\t' || c = '\n' || c = '\r' || c = '\x0b' || c = '\x0c'

/-- Embedding of Python `str.strip()` on the character list of a string. -/
def stripc (s : List Char) : List Char :=
  ((s.dropWhile pyIsSpace).reverse.dropWhile pyIsSpace).reverse

/-- Embedding of Python `str.split(sep)` for a one-character separator:
splits at every occurrence of `sep`; `n` separators yield `n + 1` parts. -/
def splitAtChar (sep : Char) : List Char → List (List Char)
  | [] => [[]]
  | c :: cs =>
    if c = sep then
      [] :: splitAtChar sep cs
    else
      match splitAtChar sep cs with
      | [] => [[c]]
      | p :: ps => (c :: p) :: ps

/-- Embedding of Python `str.replace(bad, "")` for a one-character pattern. -/
def rmChar (bad : Char) (s : List Char) : List Char :=
  s.filter (fun c => decide (c ≠ bad))

/-- Embedding of Python `str.replace("0x", "")`: delete every
non-overlapping occurrence of the two-character pattern `0x`, scanning left
to right. -/
def rm0x : List Char → List Char
  | [] => []
  | '0' :: 'x' :: cs => rm0x cs
  | c :: cs => c :: rm0x cs

/-- An HBA record: the Python dict built by `get_fc_hbas`, as an ordered
association list with insertion-order update semantics. -/
abbrev HBARec := List (String × String)

/-- Embedding of Python dict assignment `d[k] = v` (update in place if the
key is present, else append). -/
def dictInsert (k v : String) : HBARec → HBARec
  | [] => [(k, v)]
  | kv :: rest => if kv.1 = k then (k, v) :: rest else kv :: dictInsert k v rest

/-- Embedding of Python dict lookup `d[k]`; `none` is a `KeyError`. -/
def dictGet : HBARec → String → Option String
  | [], _ => none
  | kv :: rest, k => if kv.1 = k then some kv.2 else dictGet rest k

/-- One non-boundary step of the `get_fc_hbas` loop: split the stripped
line on `=`; when that yields exactly two parts store
`key = left stripped with spaces removed`,
`value = right stripped with quote characters removed`,
otherwise leave the record unchanged. -/
def stepLine (hba : HBARec) (line : String) : HBARec :=
  match splitAtChar '=' (stripc line.data) with
  | [a, b] =>
      dictInsert (String.mk (rmChar ' ' (stripc a)))
        (String.mk (rmChar '"' (stripc b))) hba
  | _ => hba

/-- The line-scanning loop of `get_fc_hbas`: `hba` is the record under
construction, `lastline` the previous stripped line (`none` before the
first iteration).  Two consecutive blank (stripped-empty) lines close the
current record, which is appended only when non-empty; any record still
open when the lines run out is dropped. -/
def parseLoop : List String → HBARec → Option String → List HBARec
  | [], _, _ => []
  | line :: rest, hba, lastline =>
    if String.mk (stripc line.data) = "" ∧ lastline = some "" then
      if hba.length > 0 then
        hba :: parseLoop rest [] (some (String.mk (stripc line.data)))
      else
        parseLoop rest hba (some (String.mk (stripc line.data)))
    else
      parseLoop rest (stepLine hba line) (some (String.mk (stripc line.data)))

/-- Embedding of Python `out.split('\n')`. -/
def linesOf (s : String) : List String :=
  (splitAtChar '\n' s.data).map String.mk

/-- The parsing stage of `get_fc_hbas`: split the raw text into lines,
discard the first two, and run the scanning loop. -/
def parseFcHbaText (out : String) : List HBARec :=
  parseLoop ((linesOf out).drop 2) [] none

/-- The record a block of lines builds when scanned with no boundary in
between (Python: successive `hba[key] = value` assignments). -/
def blockRecord (b : List String) : HBARec :=
  b.foldl stepLine []

/-- Lines that are all non-blank after stripping. -/
abbrev NonBlank (ls : List String) : Prop := ∀ l ∈ ls, stripc l.data ≠ []

/-- Lines containing no newline character (so that joining them with `\n`
and splitting again is the identity). -/
abbrev NoNL (ls : List String) : Prop := ∀ l ∈ ls, ∀ c ∈ l.data, c ≠ '\n'

/-- A well-formed data block: non-empty, every line non-blank, and the
lines build a non-empty record. -/
abbrev GoodBlock (b : List String) : Prop :=
  b ≠ [] ∧ NonBlank b ∧ blockRecord b ≠ []

/-- The line sequence of a list of blocks, each block terminated by the
two blank lines that close a record. -/
def blocksToLines : List (List String) → List String
  | [] => []
  | b :: bs => b ++ "" :: "" :: blocksToLines bs

/-- Join lines with `\n` (inverse of `linesOf` on newline-free lines). -/
def joinLines : List String → String
  | [] => ""
  | [l] => l
  | l :: ls => l ++ "\n" ++ joinLines ls

/-- Outcome of the external `systool -c fc_host -v` invocation, as seen by
`get_fc_hbas`: normal return of `(stdout, stderr)` (stdout possibly
absent), a `ProcessExecutionError` with its exit code (rootwrap in use),
or an `OSError` with its errno (direct invocation). -/
inductive ExecOutcome where
  | success (out : Option String) (err : String)
  | processExecutionError (exitCode : Int)
  | osError (errnoVal : Int)
deriving DecidableEq

/-- Errors observable from the embedded functions: a propagated
`ProcessExecutionError` or `OSError`, the `RuntimeError` raised on absent
stdout, and a `KeyError` from a dict lookup. -/
inductive FcErr where
  | processExecutionError (exitCode : Int)
  | osError (errnoVal : Int)
  | runtimeError
  | keyError (key : String)
deriving DecidableEq

/-- `errno.ENOENT`. -/
def ENOENT : Int := 2

/-- Embedding of `get_fc_hbas`: both exception handlers return `[]`
unconditionally; the sentinel exit code 96 (rootwrap `RC_NOEXECFOUND`) and
`errno.ENOENT` control only the logged warning, returned as the first
component.  A `None` stdout despite success raises `RuntimeError`;
otherwise the output text (even if empty) is parsed. -/
def get_fc_hbas : ExecOutcome → List String × Except FcErr (List HBARec)
  | ExecOutcome.processExecutionError code =>
      (if code = 96 then ["systool is not installed"] else [], Except.ok [])
  | ExecOutcome.osError e =>
      (if e = ENOENT then ["systool is not installed"] else [], Except.ok [])
  | ExecOutcome.success none _ => ([], Except.error FcErr.runtimeError)
  | ExecOutcome.success (some out) _ => ([], Except.ok (parseFcHbaText out))

/-- The record loop of `get_fc_wwpns`: keep records whose `port_state` is
`"Online"`, take `port_name` with every `0x` removed; a missing key is a
`KeyError`. -/
def wwpnsFromRecs : List HBARec → Except FcErr (List String)
  | [] => Except.ok []
  | hba :: rest =>
    match dictGet hba "port_state" with
    | none => Except.error (FcErr.keyError "port_state")
    | some st =>
      if st = "Online" then
        match dictGet hba "port_name" with
        | none => Except.error (FcErr.keyError "port_name")
        | some pn =>
          match wwpnsFromRecs rest with
          | Except.error e => Except.error e
          | Except.ok ws => Except.ok (String.mk (rm0x pn.data) :: ws)
      else wwpnsFromRecs rest

/-- The record loop of `get_fc_wwnns`: as `wwpnsFromRecs` but extracting
`node_name`. -/
def wwnnsFromRecs : List HBARec → Except FcErr (List String)
  | [] => Except.ok []
  | hba :: rest =>
    match dictGet hba "port_state" with
    | none => Except.error (FcErr.keyError "port_state")
    | some st =>
      if st = "Online" then
        match dictGet hba "node_name" with
        | none => Except.error (FcErr.keyError "node_name")
        | some nn =>
          match wwnnsFromRecs rest with
          | Except.error e => Except.error e
          | Except.ok ws => Except.ok (String.mk (rm0x nn.data) :: ws)
      else wwnnsFromRecs rest

/-- Embedding of `get_fc_wwpns`: discovery followed by the record loop. -/
def get_fc_wwpns (res : ExecOutcome) : Except FcErr (List String) :=
  match (get_fc_hbas res).2 with
  | Except.error e => Except.error e
  | Except.ok hbas => wwpnsFromRecs hbas

/-- Embedding of `get_fc_wwnns`: discovery followed by the record loop. -/
def get_fc_wwnns (res : ExecOutcome) : Except FcErr (List String) :=
  match (get_fc_hbas res).2 with
  | Except.error e => Except.error e
  | Except.ok hbas => wwnnsFromRecs hbas

/-- Spec-side description of the extractor output (§4.3 of the spec):
filter the records whose `port_state` attribute equals `"Online"`, in
order, and map each surviving record to its normalized `port_name`. -/
def wwpnSpecList (hbas : List HBARec) : List String :=
  (hbas.filter (fun h => decide (dictGet h "port_state" = some "Online"))).map
    (fun h => String.mk (rm0x ((dictGet h "port_name").getD "").data))

/-- Spec-side description of the `getWWNNs` output: as `wwpnSpecList` but
for `node_name`. -/
def wwnnSpecList (hbas : List HBARec) : List String :=
  (hbas.filter (fun h => decide (dictGet h "port_state" = some "Online"))).map
    (fun h => String.mk (rm0x ((dictGet h "node_name").getD "").data))

/-- The state of a `ConfigDriveBuilder`: the optional recorded image-file
path and the accumulated `(path, payload)` metadata entries. -/
structure ConfigDriveBuilder where
  imagefile : Option String
  mdfiles : List (String × List Nat)
deriving DecidableEq

/-- Embedding of `ConfigDriveBuilder.cleanup` against a filesystem given
as the list of existing paths: when a (truthy, i.e. non-empty) image-file
path is recorded, `fileutils.delete_if_exists` removes it — an absent path
is tolerated; otherwise nothing happens.  The builder state is returned
unchanged (the code never clears `self.imagefile`). -/
def ConfigDriveBuilder.cleanup (b : ConfigDriveBuilder) (fs : List String) :
    ConfigDriveBuilder × List String :=
  match b.imagefile with
  | some p =>
      if p = "" then (b, fs)
      else (b, fs.filter (fun q => decide (q ≠ p)))
  | none => (b, fs)

/-- Embedding of `ConfigDriveBuilder.__exit__`: the first component is the
returned suppress-flag (`False` in every case), the rest the builder and
filesystem after the call.  With an in-flight exception (`some _`) the
method returns `False` immediately and `cleanup` is skipped; on normal
exit (`none`) it runs `cleanup`. -/
def ConfigDriveBuilder.exitScope (b : ConfigDriveBuilder)
    (exctype : Option String) (fs : List String) :
    Bool × ConfigDriveBuilder × List String :=
  match exctype with
  | some _ => (false, b, fs)
  | none => (false, (b.cleanup fs).1, (b.cleanup fs).2)

deriving instance DecidableEq for Except

/-! ### Basic lemmas about the embedded string operations -/

theorem mk_eq_empty (l : List Char) : String.mk l = "" ↔ l = [] := by
  constructor
  · intro h
    have h2 : (String.mk l).data = ("" : String).data := congrArg String.data h
    exact h2
  · intro h; rw [h]

theorem splitAtChar_ne_nil (sep : Char) : ∀ cs, splitAtChar sep cs ≠ [] := by
  intro cs
  induction cs with
  | nil => simp [splitAtChar]
  | cons c cs ih =>
    by_cases hc : c = sep
    · simp [splitAtChar, hc]
    · simp only [splitAtChar, if_neg hc]
      rcases hx : splitAtChar sep cs with _ | ⟨p, ps⟩ <;> simp

theorem splitAtChar_cons_self (sep : Char) (cs : List Char) :
    splitAtChar sep (sep :: cs) = [] :: splitAtChar sep cs := by
  simp [splitAtChar]

theorem splitAtChar_cons_ne (sep c : Char) (cs : List Char) (hc : c ≠ sep) :
    splitAtChar sep (c :: cs) =
      (c :: (splitAtChar sep cs).headD []) :: (splitAtChar sep cs).tail := by
  simp only [splitAtChar, if_neg hc]
  rcases hx : splitAtChar sep cs with _ | ⟨p, ps⟩ <;> simp

theorem splitAtChar_no_sep (sep : Char) :
    ∀ a : List Char, (∀ c ∈ a, c ≠ sep) → splitAtChar sep a = [a] := by
  intro a
  induction a with
  | nil => intro _; rfl
  | cons c a ih =>
    intro h
    have hc : c ≠ sep := h c (List.mem_cons_self _ _)
    rw [splitAtChar_cons_ne sep c a hc,
      ih (fun x hx => h x (List.mem_cons_of_mem _ hx))]
    simp

theorem splitAtChar_append_cons (sep : Char) :
    ∀ a t : List Char, (∀ c ∈ a, c ≠ sep) →
      splitAtChar sep (a ++ sep :: t) = a :: splitAtChar sep t := by
  intro a
  induction a with
  | nil =>
    intro t _
    rw [List.nil_append, splitAtChar_cons_self]
  | cons c a ih =>
    intro t h
    have hc : c ≠ sep := h c (List.mem_cons_self _ _)
    rw [List.cons_append, splitAtChar_cons_ne sep c _ hc,
      ih t (fun x hx => h x (List.mem_cons_of_mem _ hx))]
    simp

theorem length_splitAtChar (sep : Char) :
    ∀ cs : List Char,
      (splitAtChar sep cs).length = cs.countP (fun c => decide (c = sep)) + 1 := by
  intro cs
  induction cs with
  | nil => rfl
  | cons c cs ih =>
    by_cases hc : c = sep
    · subst hc
      rw [splitAtChar_cons_self]
      simp [List.countP_cons, ih]
    · rw [splitAtChar_cons_ne sep c cs hc]
      rcases hx : splitAtChar sep cs with _ | ⟨p, ps⟩
      · exact absurd hx (splitAtChar_ne_nil sep cs)
      · rw [hx] at ih
        simp only [List.length_cons] at ih
        simp [List.countP_cons, hc]
        omega

theorem getLastD_mem : ∀ (l : List String) (d : String), l ≠ [] → l.getLastD d ∈ l := by
  intro l
  induction l with
  | nil => intro d h; exact absurd rfl h
  | cons x t ih =>
    intro d _
    cases t with
    | nil => simp [List.getLastD]
    | cons y t2 =>
      rw [List.getLastD_cons]
      exact List.mem_cons_of_mem _ (ih x (by simp))

theorem mk_data (s : String) : String.mk s.data = s := rfl

theorem linesOf_join :
    ∀ ls : List String, ls ≠ [] → (∀ l ∈ ls, ∀ c ∈ l.data, c ≠ '\n') →
      linesOf (joinLines ls) = ls := by
  intro ls
  induction ls with
  | nil => intro h; exact absurd rfl h
  | cons l ls ih =>
    intro _ hnl
    cases ls with
    | nil =>
      show linesOf l = [l]
      unfold linesOf
      rw [splitAtChar_no_sep '\n' l.data (hnl l (List.mem_cons_self _ _))]
      simp [mk_data]
    | cons l2 ls2 =>
      have hjoin : joinLines (l :: l2 :: ls2) = l ++ "\n" ++ joinLines (l2 :: ls2) := rfl
      unfold linesOf
      rw [hjoin]
      have hdata : (l ++ "\n" ++ joinLines (l2 :: ls2)).data
          = l.data ++ '\n' :: (joinLines (l2 :: ls2)).data := by
        simp [String.data_append, List.append_assoc]
      rw [hdata]
      rw [splitAtChar_append_cons '\n' l.data _ (hnl l (List.mem_cons_self _ _))]
      have ihr := ih (by simp) (fun x hx => hnl x (List.mem_cons_of_mem _ hx))
      unfold linesOf at ihr
      simp only [List.map_cons, mk_data, ihr]

/-! ### Lemmas about the `get_fc_hbas` scanning loop -/

theorem parseLoop_cons_eq (line : String) (rest : List String) (hba : HBARec)
    (lastline : Option String) :
    parseLoop (line :: rest) hba lastline =
      if String.mk (stripc line.data) = "" ∧ lastline = some "" then
        if hba.length > 0 then
          hba :: parseLoop rest [] (some (String.mk (stripc line.data)))
        else parseLoop rest hba (some (String.mk (stripc line.data)))
      else parseLoop rest (stepLine hba line) (some (String.mk (stripc line.data))) := by
  rw [parseLoop]

theorem parseLoop_run :
    ∀ (ls rest : List String) (hba : HBARec) (last : Option String),
      (∀ l ∈ ls, stripc l.data ≠ []) → ls ≠ [] →
      parseLoop (ls ++ rest) hba last
        = parseLoop rest (ls.foldl stepLine hba)
            (some (String.mk (stripc (ls.getLastD "").data))) := by
  intro ls
  induction ls with
  | nil => intro rest hba last _ hne; exact absurd rfl hne
  | cons l ls ih =>
    intro rest hba last hnb _
    have hl : stripc l.data ≠ [] := hnb l (List.mem_cons_self _ _)
    have hcond : ¬(String.mk (stripc l.data) = "" ∧ last = some "") := by
      intro hc
      exact hl ((mk_eq_empty _).mp hc.1)
    rw [List.cons_append, parseLoop_cons_eq, if_neg hcond]
    cases ls with
    | nil =>
      rw [List.nil_append]
      simp [List.getLastD]
    | cons l2 ls2 =>
      rw [ih rest (stepLine hba l) (some (String.mk (stripc l.data)))
        (fun x hx => hnb x (List.mem_cons_of_mem _ hx)) (by simp)]
      simp [List.foldl_cons, List.getLastD_cons]

theorem parseLoop_blank_noBoundary (line : String) (hl : stripc line.data = [])
    (rest : List String) (hba : HBARec) (last : Option String)
    (hlast : last ≠ some "") :
    parseLoop (line :: rest) hba last = parseLoop rest hba (some "") := by
  have h1 : String.mk (stripc line.data) = "" := by rw [hl]
  have hcond : ¬(String.mk (stripc line.data) = "" ∧ last = some "") :=
    fun hc => hlast hc.2
  have hstep : stepLine hba line = hba := by
    simp [stepLine, hl, splitAtChar]
  rw [parseLoop_cons_eq, if_neg hcond, hstep, h1]

theorem parseLoop_boundary_emit (line : String) (hl : stripc line.data = [])
    (rest : List String) (hba : HBARec) (hne : hba ≠ []) :
    parseLoop (line :: rest) hba (some "") = hba :: parseLoop rest [] (some "") := by
  have h1 : String.mk (stripc line.data) = "" := by rw [hl]
  have hcond : String.mk (stripc line.data) = "" ∧ (some "" : Option String) = some "" :=
    ⟨h1, rfl⟩
  have hlen : hba.length > 0 := List.length_pos.mpr hne
  rw [parseLoop_cons_eq, if_pos hcond, if_pos hlen, h1]

theorem parseLoop_mem_ne_nil :
    ∀ (lines : List String) (hba : HBARec) (last : Option String) (r : HBARec),
      r ∈ parseLoop lines hba last → r ≠ [] := by
  intro lines
  induction lines with
  | nil => intro _ _ r hr; simp [parseLoop] at hr
  | cons line rest ih =>
    intro hba last r hr
    rw [parseLoop_cons_eq] at hr
    by_cases hc : (String.mk (stripc line.data) = "" ∧ last = some "")
    · rw [if_pos hc] at hr
      by_cases hlen : hba.length > 0
      · rw [if_pos hlen] at hr
        rcases List.mem_cons.mp hr with rfl | hr2
        · exact List.ne_nil_of_length_pos hlen
        · exact ih _ _ r hr2
      · rw [if_neg hlen] at hr
        exact ih _ _ r hr
    · rw [if_neg hc] at hr
      exact ih _ _ r hr

theorem mem_blocksToLines :
    ∀ (bs : List (List String)) (l : String),
      l ∈ blocksToLines bs → l = "" ∨ ∃ b, b ∈ bs ∧ l ∈ b := by
  intro bs
  induction bs with
  | nil => intro l hl; simp [blocksToLines] at hl
  | cons b bs ih =>
    intro l hl
    simp only [blocksToLines, List.mem_append, List.mem_cons] at hl
    rcases hl with hb | rfl | rfl | hrest
    · exact Or.inr ⟨b, List.mem_cons_self _ _, hb⟩
    · exact Or.inl rfl
    · exact Or.inl rfl
    · rcases ih l hrest with h | ⟨b2, hb2, hlb2⟩
      · exact Or.inl h
      · exact Or.inr ⟨b2, List.mem_cons_of_mem _ hb2, hlb2⟩

theorem parseMain :
    ∀ blocks : List (List String), (∀ b ∈ blocks, GoodBlock b) →
      ∀ tail : List String, (tail = [] ∨ (tail ≠ [] ∧ NonBlank tail)) →
      ∀ last, parseLoop (blocksToLines blocks ++ tail) [] last
        = blocks.map blockRecord := by
  intro blocks
  induction blocks with
  | nil =>
    intro _ tail ht last
    rcases ht with rfl | ⟨hne, hnb⟩
    · rfl
    · rw [show blocksToLines [] ++ tail = tail ++ [] from by simp [blocksToLines]]
      rw [parseLoop_run tail [] [] last hnb hne]
      rfl
  | cons b bs ih =>
    intro hgood tail ht last
    obtain ⟨hbne, hbnb, hbrec⟩ := hgood b (List.mem_cons_self _ _)
    rw [show blocksToLines (b :: bs) ++ tail
        = b ++ ("" :: "" :: (blocksToLines bs ++ tail)) from by
      simp [blocksToLines]]
    rw [parseLoop_run b _ [] last hbnb hbne]
    have hlast : (some (String.mk (stripc (b.getLastD "").data)) : Option String)
        ≠ some "" := by
      intro hc
      have h2 : String.mk (stripc (b.getLastD "").data) = "" := Option.some.inj hc
      exact hbnb (b.getLastD "") (getLastD_mem b "" hbne) ((mk_eq_empty _).mp h2)
    rw [parseLoop_blank_noBoundary "" rfl _ _ _ hlast]
    rw [parseLoop_boundary_emit "" rfl _ _
      (show List.foldl stepLine [] b ≠ [] from hbrec)]
    rw [ih (fun x hx => hgood x (List.mem_cons_of_mem _ hx)) tail ht (some "")]
    rfl

/-! ### Lemmas about the WWPN / WWNN extractors -/

theorem wwpns_ok_spec :
    ∀ (hbas : List HBARec) (vs : List String),
      wwpnsFromRecs hbas = Except.ok vs → vs = wwpnSpecList hbas := by
  intro hbas
  induction hbas with
  | nil =>
    intro vs h
    simp only [wwpnsFromRecs] at h
    simp [wwpnSpecList, ← Except.ok.inj h]
  | cons hba rest ih =>
    intro vs h
    rcases hps : dictGet hba "port_state" with _ | st
    · simp [wwpnsFromRecs, hps] at h
    · by_cases hOn : st = "Online"
      · subst hOn
        rcases hpn : dictGet hba "port_name" with _ | pn
        · simp [wwpnsFromRecs, hps, hpn] at h
        · rcases hr : wwpnsFromRecs rest with e | ws
          · simp [wwpnsFromRecs, hps, hpn, hr] at h
          · simp only [wwpnsFromRecs, hps, hpn, hr, if_pos rfl] at h
            rw [← Except.ok.inj h]
            simp [wwpnSpecList, List.filter_cons, hps, hpn]
            exact ih ws hr
      · simp only [wwpnsFromRecs, hps, if_neg hOn] at h
        rw [ih vs h]
        simp [wwpnSpecList, List.filter_cons, hps, hOn]

theorem wwnns_ok_spec :
    ∀ (hbas : List HBARec) (vs : List String),
      wwnnsFromRecs hbas = Except.ok vs → vs = wwnnSpecList hbas := by
  intro hbas
  induction hbas with
  | nil =>
    intro vs h
    simp only [wwnnsFromRecs] at h
    simp [wwnnSpecList, ← Except.ok.inj h]
  | cons hba rest ih =>
    intro vs h
    rcases hps : dictGet hba "port_state" with _ | st
    · simp [wwnnsFromRecs, hps] at h
    · by_cases hOn : st = "Online"
      · subst hOn
        rcases hnn : dictGet hba "node_name" with _ | nn
        · simp [wwnnsFromRecs, hps, hnn] at h
        · rcases hr : wwnnsFromRecs rest with e | ws
          · simp [wwnnsFromRecs, hps, hnn, hr] at h
          · simp only [wwnnsFromRecs, hps, hnn, hr, if_pos rfl] at h
            rw [← Except.ok.inj h]
            simp [wwnnSpecList, List.filter_cons, hps, hnn]
            exact ih ws hr
      · simp only [wwnnsFromRecs, hps, if_neg hOn] at h
        rw [ih vs h]
        simp [wwnnSpecList, List.filter_cons, hps, hOn]

theorem wwpns_missing_port_name :
    ∀ (hbas : List HBARec) (hba : HBARec), hba ∈ hbas →
      dictGet hba "port_state" = some "Online" →
      dictGet hba "port_name" = none →
      ∃ e, wwpnsFromRecs hbas = Except.error e := by
  intro hbas
  induction hbas with
  | nil => intro hba h; simp at h
  | cons h0 rest ih =>
    intro hba hmem hps hpn
    rcases List.mem_cons.mp hmem with rfl | hmem2
    · exact ⟨FcErr.keyError "port_name", by simp [wwpnsFromRecs, hps, hpn]⟩
    · rcases hps0 : dictGet h0 "port_state" with _ | st
      · exact ⟨FcErr.keyError "port_state", by simp [wwpnsFromRecs, hps0]⟩
      · by_cases hOn : st = "Online"
        · subst hOn
          rcases hpn0 : dictGet h0 "port_name" with _ | pn
          · exact ⟨FcErr.keyError "port_name", by simp [wwpnsFromRecs, hps0, hpn0]⟩
          · obtain ⟨e, he⟩ := ih hba hmem2 hps hpn
            exact ⟨e, by simp [wwpnsFromRecs, hps0, hpn0, he]⟩
        · obtain ⟨e, he⟩ := ih hba hmem2 hps hpn
          exact ⟨e, by simp [wwpnsFromRecs, hps0, hOn, he]⟩

theorem wwnns_missing_node_name :
    ∀ (hbas : List HBARec) (hba : HBARec), hba ∈ hbas →
      dictGet hba "port_state" = some "Online" →
      dictGet hba "node_name" = none →
      ∃ e, wwnnsFromRecs hbas = Except.error e := by
  intro hbas
  induction hbas with
  | nil => intro hba h; simp at h
  | cons h0 rest ih =>
    intro hba hmem hps hnn
    rcases List.mem_cons.mp hmem with rfl | hmem2
    · exact ⟨FcErr.keyError "node_name", by simp [wwnnsFromRecs, hps, hnn]⟩
    · rcases hps0 : dictGet h0 "port_state" with _ | st
      · exact ⟨FcErr.keyError "port_state", by simp [wwnnsFromRecs, hps0]⟩
      · by_cases hOn : st = "Online"
        · subst hOn
          rcases hnn0 : dictGet h0 "node_name" with _ | nn
          · exact ⟨FcErr.keyError "node_name", by simp [wwnnsFromRecs, hps0, hnn0]⟩
          · obtain ⟨e, he⟩ := ih hba hmem2 hps hnn
            exact ⟨e, by simp [wwnnsFromRecs, hps0, hnn0, he]⟩
        · obtain ⟨e, he⟩ := ih hba hmem2 hps hnn
          exact ⟨e, by simp [wwnnsFromRecs, hps0, hOn, he]⟩

theorem wwpns_missing_port_state :
    ∀ (hbas : List HBARec) (hba : HBARec), hba ∈ hbas →
      dictGet hba "port_state" = none →
      ∃ e, wwpnsFromRecs hbas = Except.error e := by
  intro hbas
  induction hbas with
  | nil => intro hba h; simp at h
  | cons h0 rest ih =>
    intro hba hmem hps
    rcases List.mem_cons.mp hmem with rfl | hmem2
    · exact ⟨FcErr.keyError "port_state", by simp [wwpnsFromRecs, hps]⟩
    · rcases hps0 : dictGet h0 "port_state" with _ | st
      · exact ⟨FcErr.keyError "port_state", by simp [wwpnsFromRecs, hps0]⟩
      · by_cases hOn : st = "Online"
        · subst hOn
          rcases hpn0 : dictGet h0 "port_name" with _ | pn
          · exact ⟨FcErr.keyError "port_name", by simp [wwpnsFromRecs, hps0, hpn0]⟩
          · obtain ⟨e, he⟩ := ih hba hmem2 hps
            exact ⟨e, by simp [wwpnsFromRecs, hps0, hpn0, he]⟩
        · obtain ⟨e, he⟩ := ih hba hmem2 hps
          exact ⟨e, by simp [wwpnsFromRecs, hps0, hOn, he]⟩

theorem wwnns_missing_port_state :
    ∀ (hbas : List HBARec) (hba : HBARec), hba ∈ hbas →
      dictGet hba "port_state" = none →
      ∃ e, wwnnsFromRecs hbas = Except.error e := by
  intro hbas
  induction hbas with
  | nil => intro hba h; simp at h
  | cons h0 rest ih =>
    intro hba hmem hps
    rcases List.mem_cons.mp hmem with rfl | hmem2
    · exact ⟨FcErr.keyError "port_state", by simp [wwnnsFromRecs, hps]⟩
    · rcases hps0 : dictGet h0 "port_state" with _ | st
      · exact ⟨FcErr.keyError "port_state", by simp [wwnnsFromRecs, hps0]⟩
      · by_cases hOn : st = "Online"
        · subst hOn
          rcases hnn0 : dictGet h0 "node_name" with _ | nn
          · exact ⟨FcErr.keyError "node_name", by simp [wwnnsFromRecs, hps0, hnn0]⟩
          · obtain ⟨e, he⟩ := ih hba hmem2 hps
            exact ⟨e, by simp [wwnnsFromRecs, hps0, hnn0, he]⟩
        · obtain ⟨e, he⟩ := ih hba hmem2 hps
          exact ⟨e, by simp [wwnnsFromRecs, hps0, hOn, he]⟩

theorem filter_idem (p : String → Bool) :
    ∀ l : List String, (l.filter p).filter p = l.filter p := by
  intro l
  induction l with
  | nil => rfl
  | cons a t ih =>
    cases hp : p a <;> simp [List.filter_cons, hp, ih]

/-! ### Claim theorems -/

/-- C1 counterexample: a `ProcessExecutionError` with exit code 1 — not the
sentinel 96 — is already recovered locally by `get_fc_hbas`, which returns
an empty sequence (and logs nothing) instead of propagating the failure. -/
theorem get_fc_hbas_nonsentinel_error_counterexample :
    (get_fc_hbas (ExecOutcome.processExecutionError 1)).2 = Except.ok [] ∧
    (get_fc_hbas (ExecOutcome.processExecutionError 1)).1 = [] ∧
    (1 : Int) ≠ 96 :=
  ⟨rfl, rfl, by decide⟩

/-- C1 amended: `get_fc_hbas` recovers every `ProcessExecutionError` and
every `OSError` by returning an empty sequence, whatever the exit code or
errno; the sentinel exit code 96 and `errno.ENOENT` control only whether
the "systool is not installed" warning is logged. -/
theorem get_fc_hbas_all_exec_errors_recovered :
    (∀ code : Int,
      (get_fc_hbas (ExecOutcome.processExecutionError code)).2 = Except.ok []) ∧
    (∀ e : Int, (get_fc_hbas (ExecOutcome.osError e)).2 = Except.ok []) ∧
    (∀ code : Int, (get_fc_hbas (ExecOutcome.processExecutionError code)).1
      = if code = 96 then ["systool is not installed"] else []) ∧
    (∀ e : Int, (get_fc_hbas (ExecOutcome.osError e)).1
      = if e = ENOENT then ["systool is not installed"] else []) :=
  ⟨fun _ => rfl, fun _ => rfl, fun _ => rfl, fun _ => rfl⟩

/-- C2 counterexample: the line `a=b=c` contains an `=`, yet the parser
ignores it (the record of its block holds no key `a`), because Python
`split('=')` cuts at every `=` and yields three parts here, not two. -/
theorem parse_multi_eq_line_counterexample :
    parseFcHbaText "l1\nl2\na=b=c\nx = 1\n\n\n" = [[("x", "1")]] ∧
    ("a=b=c".data.countP (fun c => decide (c = '='))) = 2 ∧
    dictGet [("x", "1")] "a" = none :=
  ⟨rfl, by decide, rfl⟩

/-- C2 amended: a non-boundary line is stored if and only if its stripped
text contains exactly one `=`: with one `=` it is split there into key
(left part stripped, spaces removed) and value (right part stripped,
quote characters removed); with zero or with two or more `=` characters it
is silently ignored. -/
theorem stepLine_exactly_one_eq :
    (∀ (hba : HBARec) (l : String),
      (stripc l.data).countP (fun c => decide (c = '=')) ≠ 1 →
      stepLine hba l = hba) ∧
    (∀ (hba : HBARec) (l : String) (pre post : List Char),
      stripc l.data = pre ++ '=' :: post → '=' ∉ pre → '=' ∉ post →
      stepLine hba l = dictInsert (String.mk (rmChar ' ' (stripc pre)))
        (String.mk (rmChar '"' (stripc post))) hba) := by
  constructor
  · intro hba l hcnt
    have hlen : (splitAtChar '=' (stripc l.data)).length ≠ 2 := by
      rw [length_splitAtChar]
      omega
    unfold stepLine
    rcases hx : splitAtChar '=' (stripc l.data) with _ | ⟨a, _ | ⟨b, _ | ⟨c, tl⟩⟩⟩
    · rfl
    · rfl
    · rw [hx] at hlen
      simp at hlen
    · rfl
  · intro hba l pre post h1 hpre hpost
    unfold stepLine
    rw [h1, splitAtChar_append_cons '=' pre post (fun c hc hceq => hpre (hceq ▸ hc)),
      splitAtChar_no_sep '=' post (fun c hc hceq => hpost (hceq ▸ hc))]

/-- Witness for C2: `a=b=c` (two `=`) is ignored, `x = 1` (one `=`) is
stored as key `x`, value `1`. -/
theorem stepLine_exactly_one_eq_witness :
    stepLine [] "a=b=c" = [] ∧ stepLine [] "x = 1" = dictInsert "x" "1" [] :=
  ⟨stepLine_exactly_one_eq.1 [] "a=b=c" (by decide),
   (stepLine_exactly_one_eq.2 [] "x = 1" ['x', ' '] [' ', '1'] (by decide)
     (by decide) (by decide)).trans (by decide)⟩

/-- C3 counterexample: for the Online record with `port_name`
`"0x500x123"`, the extractor yields `"50123"` — the internal, non-prefix
occurrence of `0x` is removed too — and not the `"500x123"` the claim
predicts. -/
theorem wwpn_internal_0x_counterexample :
    wwpnsFromRecs [[("port_state", "Online"), ("port_name", "0x500x123")]]
      = Except.ok ["50123"] ∧
    wwpnsFromRecs [[("port_state", "Online"), ("port_name", "0x500x123")]]
      ≠ Except.ok ["500x123"] :=
  ⟨rfl, by decide⟩

/-- C3 amended: the WWPN/WWNN value is the raw attribute with every
non-overlapping occurrence of `0x` removed in one left-to-right pass (so
a leading `0x` prefix is removed, but so is any internal occurrence); the
spec's own example still yields `5005076801234567`. -/
theorem wwn_replace_all_0x :
    ∀ pn nn : String,
      wwpnsFromRecs [[("port_state", "Online"), ("port_name", pn)]]
        = Except.ok [String.mk (rm0x pn.data)] ∧
      wwnnsFromRecs [[("port_state", "Online"), ("node_name", nn)]]
        = Except.ok [String.mk (rm0x nn.data)] ∧
      (∀ cs : List Char, rm0x ('0' :: 'x' :: cs) = rm0x cs) ∧
      String.mk (rm0x ("0x500x123" : String).data) = "50123" ∧
      wwpnsFromRecs [[("port_state", "Online"), ("port_name", "0x5005076801234567")]]
        = Except.ok ["5005076801234567"] :=
  fun _ _ => ⟨rfl, rfl, fun _ => rfl, rfl, rfl⟩

/-- C5: when the external command succeeds but stdout is absent (`None`),
`get_fc_hbas` fails with the `RuntimeError` ("Cannot find any Fibre
Channel HBAs", the spec's `NotFoundError`); when stdout is present — even
as empty text — no error is raised and parsing proceeds. -/
theorem get_fc_hbas_none_stdout_raises :
    (∀ err, (get_fc_hbas (ExecOutcome.success none err)).2
      = Except.error FcErr.runtimeError) ∧
    (∀ s err, (get_fc_hbas (ExecOutcome.success (some s) err)).2
      = Except.ok (parseFcHbaText s)) ∧
    (get_fc_hbas (ExecOutcome.success (some "") "")).2 = Except.ok [] :=
  ⟨fun _ => rfl, fun _ _ => rfl, rfl⟩

/-- C4: the parser drops the first two lines, returns one (non-empty)
record per block closed by two consecutive blank lines, in source order; a
single blank line does not close a record; a trailing block with no
closing double-blank is dropped; empty input yields an empty sequence. -/
theorem parse_two_blank_delimited_blocks :
    parseFcHbaText "" = [] ∧
    (∀ (s : String) (r : HBARec), r ∈ parseFcHbaText s → r ≠ []) ∧
    (∀ (h1 h2 : String) (blocks : List (List String)) (tail : List String),
      (∀ c ∈ h1.data, c ≠ '\n') → (∀ c ∈ h2.data, c ≠ '\n') →
      (∀ b ∈ blocks, GoodBlock b ∧ NoNL b) →
      (tail = [] ∨ (tail ≠ [] ∧ NonBlank tail ∧ NoNL tail)) →
      parseFcHbaText (joinLines (h1 :: h2 :: (blocksToLines blocks ++ tail)))
        = blocks.map blockRecord) ∧
    (∀ (bl : String) (pre post : List String) (last : Option String),
      pre ≠ [] → post ≠ [] → NonBlank pre → NonBlank post →
      stripc bl.data = [] → blockRecord (pre ++ post) ≠ [] →
      parseLoop (pre ++ bl :: (post ++ ["", ""])) [] last
        = [blockRecord (pre ++ post)]) := by
  refine ⟨rfl, ?_, ?_, ?_⟩
  · intro s r hr
    exact parseLoop_mem_ne_nil _ _ _ r hr
  · intro h1 h2 blocks tail hh1 hh2 hb ht
    have hnl : ∀ l ∈ h1 :: h2 :: (blocksToLines blocks ++ tail),
        ∀ c ∈ l.data, c ≠ '\n' := by
      intro l hl
      rcases List.mem_cons.mp hl with rfl | hl2
      · exact hh1
      rcases List.mem_cons.mp hl2 with rfl | hl3
      · exact hh2
      rcases List.mem_append.mp hl3 with hbl | htl
      · rcases mem_blocksToLines blocks l hbl with rfl | ⟨b, hbmem, hlb⟩
        · exact fun c hc => absurd hc (List.not_mem_nil c)
        · exact (hb b hbmem).2 l hlb
      · rcases ht with rfl | ⟨_, _, hnltail⟩
        · exact absurd htl (List.not_mem_nil l)
        · exact hnltail l htl
    unfold parseFcHbaText
    rw [linesOf_join _ (by simp) hnl]
    rw [show (h1 :: h2 :: (blocksToLines blocks ++ tail)).drop 2
        = blocksToLines blocks ++ tail from rfl]
    refine parseMain blocks (fun b hbm => (hb b hbm).1) tail ?_ none
    rcases ht with rfl | ⟨hne, hnb, _⟩
    · exact Or.inl rfl
    · exact Or.inr ⟨hne, hnb⟩
  · intro bl pre post last hpre hpost hnbpre hnbpost hbl hrec
    rw [parseLoop_run pre (bl :: (post ++ ["", ""])) [] last hnbpre hpre]
    have hlast1 : (some (String.mk (stripc (pre.getLastD "").data)) : Option String)
        ≠ some "" := by
      intro hc
      exact hnbpre (pre.getLastD "") (getLastD_mem pre "" hpre)
        ((mk_eq_empty _).mp (Option.some.inj hc))
    rw [parseLoop_blank_noBoundary bl hbl _ _ _ hlast1]
    rw [parseLoop_run post ["", ""] _ (some "") hnbpost hpost]
    have hlast2 : (some (String.mk (stripc (post.getLastD "").data)) : Option String)
        ≠ some "" := by
      intro hc
      exact hnbpost (post.getLastD "") (getLastD_mem post "" hpost)
        ((mk_eq_empty _).mp (Option.some.inj hc))
    rw [parseLoop_blank_noBoundary "" rfl _ _ _ hlast2]
    have hfold : List.foldl stepLine (List.foldl stepLine [] pre) post
        = blockRecord (pre ++ post) := by
      rw [blockRecord, List.foldl_append]
    rw [parseLoop_boundary_emit "" rfl []
      (List.foldl stepLine (List.foldl stepLine [] pre) post)
      (by rw [hfold]; exact hrec)]
    simp [parseLoop, hfold]

/-- Witness for C4: two header lines, then one block `port_name = "0xAA"`
closed by two blank lines, parse to exactly that one record. -/
theorem parse_two_blank_delimited_blocks_witness :
    parseFcHbaText (joinLines ["Class Device", "", "port_name = \"0xAA\"", "", ""])
      = [[("port_name", "0xAA")]] :=
  (parse_two_blank_delimited_blocks.2.2.1 "Class Device" ""
    [["port_name = \"0xAA\""]] [] (by decide) (by decide) (by decide)
    (Or.inl rfl)).trans (by decide)

/-- C6: whenever the extractors succeed, their output is exactly the
records whose `port_state` equals `"Online"`, in source order, mapped to
the normalized `port_name` (resp. `node_name`); records with any other
`port_state` contribute nothing. -/
theorem extractors_filter_online_ordered :
    ∀ hbas : List HBARec,
      (∀ vs, wwpnsFromRecs hbas = Except.ok vs → vs = wwpnSpecList hbas) ∧
      (∀ vs, wwnnsFromRecs hbas = Except.ok vs → vs = wwnnSpecList hbas) :=
  fun hbas =>
    ⟨fun vs h => wwpns_ok_spec hbas vs h, fun vs h => wwnns_ok_spec hbas vs h⟩

/-- Witness for C6: on an Offline record followed by an Online one, the
outputs are the Online record's normalized values only. -/
theorem extractors_filter_online_ordered_witness :
    (["BB"] = wwpnSpecList
      [[("port_state", "Offline"), ("port_name", "0xAA"), ("node_name", "0xCC")],
       [("port_state", "Online"), ("port_name", "0xBB"), ("node_name", "0xDD")]]) ∧
    (["DD"] = wwnnSpecList
      [[("port_state", "Offline"), ("port_name", "0xAA"), ("node_name", "0xCC")],
       [("port_state", "Online"), ("port_name", "0xBB"), ("node_name", "0xDD")]]) :=
  ⟨(extractors_filter_online_ordered _).1 ["BB"] rfl,
   (extractors_filter_online_ordered _).2 ["DD"] rfl⟩

/-- C7: an Online record lacking the expected attribute key makes the
extractor fail with a `KeyError` (the spec's `MissingFieldError`); it is
never skipped and never contributes a default value. -/
theorem extractors_missing_field_error :
    ∀ (hbas : List HBARec) (hba : HBARec), hba ∈ hbas →
      dictGet hba "port_state" = some "Online" →
      ((dictGet hba "port_name" = none →
          ∃ e, wwpnsFromRecs hbas = Except.error e) ∧
       (dictGet hba "node_name" = none →
          ∃ e, wwnnsFromRecs hbas = Except.error e)) :=
  fun hbas hba hmem hps =>
    ⟨fun hpn => wwpns_missing_port_name hbas hba hmem hps hpn,
     fun hnn => wwnns_missing_node_name hbas hba hmem hps hnn⟩

/-- Witness for C7: an Online record with no `port_name` / `node_name`
makes both extractors fail. -/
theorem extractors_missing_field_error_witness :
    (∃ e, wwpnsFromRecs [[("port_state", "Online")]] = Except.error e) ∧
    (∃ e, wwnnsFromRecs [[("port_state", "Online")]] = Except.error e) :=
  ⟨(extractors_missing_field_error [[("port_state", "Online")]]
      [("port_state", "Online")] (List.mem_cons_self _ _) rfl).1 rfl,
   (extractors_missing_field_error [[("port_state", "Online")]]
      [("port_state", "Online")] (List.mem_cons_self _ _) rfl).2 rfl⟩

/-- C10: a record with no `port_state` key at all makes both extractors
fail with a key-lookup error while evaluating the Online filter — it is
not treated as not-Online and filtered out. -/
theorem extractors_missing_port_state_error :
    ∀ (hbas : List HBARec) (hba : HBARec), hba ∈ hbas →
      dictGet hba "port_state" = none →
      (∃ e, wwpnsFromRecs hbas = Except.error e) ∧
      (∃ e, wwnnsFromRecs hbas = Except.error e) :=
  fun hbas hba hmem hps =>
    ⟨wwpns_missing_port_state hbas hba hmem hps,
     wwnns_missing_port_state hbas hba hmem hps⟩

/-- Witness for C10: a record carrying only `port_name`/`node_name` (no
`port_state`) makes both extractors fail. -/
theorem extractors_missing_port_state_error_witness :
    (∃ e, wwpnsFromRecs [[("port_name", "0xAA"), ("node_name", "0xBB")]]
      = Except.error e) ∧
    (∃ e, wwnnsFromRecs [[("port_name", "0xAA"), ("node_name", "0xBB")]]
      = Except.error e) :=
  ⟨(extractors_missing_port_state_error [[("port_name", "0xAA"), ("node_name", "0xBB")]]
      [("port_name", "0xAA"), ("node_name", "0xBB")] (List.mem_cons_self _ _) rfl).1,
   (extractors_missing_port_state_error [[("port_name", "0xAA"), ("node_name", "0xBB")]]
      [("port_name", "0xAA"), ("node_name", "0xBB")] (List.mem_cons_self _ _) rfl).2⟩

/-- C8: used as a scope-bound resource, the builder runs `cleanup` on
every normal exit; when an exception is propagating, `cleanup` is skipped
(builder and filesystem untouched) and the exit handler returns `False`,
so the exception is not suppressed. -/
theorem configdrive_exit_cleanup_policy :
    ∀ (b : ConfigDriveBuilder) (fs : List String) (e : String),
      b.exitScope (some e) fs = (false, b, fs) ∧
      b.exitScope none fs = (false, (b.cleanup fs).1, (b.cleanup fs).2) :=
  fun _ _ _ => ⟨rfl, rfl⟩

/-- C9: `cleanup` is a no-op when no image file is recorded, tolerates an
already-absent image file, never changes the builder state, and is
idempotent. -/
theorem configdrive_cleanup_idempotent :
    (∀ (b : ConfigDriveBuilder) (fs : List String), b.imagefile = none →
      b.cleanup fs = (b, fs)) ∧
    (∀ (b : ConfigDriveBuilder) (fs : List String) (p : String),
      b.imagefile = some p → p ∉ fs → b.cleanup fs = (b, fs)) ∧
    (∀ (b : ConfigDriveBuilder) (fs : List String), (b.cleanup fs).1 = b) ∧
    (∀ (b : ConfigDriveBuilder) (fs : List String),
      ((b.cleanup fs).1).cleanup (b.cleanup fs).2 = b.cleanup fs) := by
  refine ⟨?_, ?_, ?_, ?_⟩
  · intro b fs h
    simp [ConfigDriveBuilder.cleanup, h]
  · intro b fs p h hp
    simp only [ConfigDriveBuilder.cleanup, h]
    by_cases hp0 : p = ""
    · rw [if_pos hp0]
    · rw [if_neg hp0]
      have hself : fs.filter (fun q => decide (q ≠ p)) = fs :=
        List.filter_eq_self.mpr (fun a ha => decide_eq_true (fun hq => hp (hq ▸ ha)))
      rw [hself]
  · intro b fs
    rcases hb : b.imagefile with _ | p
    · simp [ConfigDriveBuilder.cleanup, hb]
    · by_cases hp0 : p = "" <;> simp [ConfigDriveBuilder.cleanup, hb, hp0]
  · intro b fs
    rcases hb : b.imagefile with _ | p
    · simp [ConfigDriveBuilder.cleanup, hb]
    · by_cases hp0 : p = "" <;>
        simp [ConfigDriveBuilder.cleanup, hb, hp0, filter_idem]

/-- Witness for C9: deleting a recorded image file that is not on disk
leaves builder and filesystem unchanged. -/
theorem configdrive_cleanup_idempotent_witness :
    ConfigDriveBuilder.cleanup ⟨some "/tmp/cd.img", []⟩ ["a", "b"]
      = (⟨some "/tmp/cd.img", []⟩, ["a", "b"]) :=
  configdrive_cleanup_idempotent.2.1 ⟨some "/tmp/cd.img", []⟩ ["a", "b"]
    "/tmp/cd.img" rfl (by decide)
